import Mathlib

/-!
Verification development for the typyPRISM core (PRISM integral-equation solver).

The PRISM solver (`src/typyPRISM/core/PRISM.py`) and the Percus-Yevick closure
(`src/typyPRISM/closure/PercusYevick.py`) are embedded shallowly below.  The
supporting layers that the repository imports but whose sources are not part of
this snapshot (`MatrixArray`, `Domain`, `Space`, the closure base classes, the
`PairTable`/`System` glue) are modelled from the specification, as marked on
each definition.  Scalars are modelled over an arbitrary `Field` so that every
definition stays computable; the exponential used by the Percus-Yevick closure
is passed as an explicit function argument.
-/

namespace TypyPRISM

/-- Modelled from the spec: the `typyPRISM.core.Space` tag, a current-space
marker (Real or Fourier) carried by every MatrixArray and validated by the
transform and algebra operations. -/
inductive Space where
  | Real : Space
  | Fourier : Space
deriving DecidableEq, Repr

/-- Error conditions surfaced by the core, one constructor per failure kind of
the spec's error taxonomy (domain mismatch, space mismatch, singular matrix,
unimplemented molecular closure, unrecognized closure type). -/
inductive PrismError where
  | domainMismatch : PrismError
  | spaceMismatch : PrismError
  | singularMatrix (gridIndex : ℕ) : PrismError
  | notImplemented : PrismError
  | closureNotRecognized : PrismError
deriving DecidableEq, Repr

/-- Modelled from the spec: `typyPRISM.core.MatrixArray` - at each of `L` grid
points a `n x n` matrix of scalars, together with the current-space tag. -/
structure MatrixArray (F : Type) (n L : ℕ) where
  data : Fin L → Matrix (Fin n) (Fin n) F
  space : Space

variable {F : Type} [Field F] [DecidableEq F] {n L : ℕ}

/-- Modelled from the spec: reading the full-length scalar series of the pair
`(a, b)` from a MatrixArray (`field[typeA, typeB]`). -/
def MatrixArray.getSeries (M : MatrixArray F n L) (a b : Fin n) : Fin L → F :=
  fun i => M.data i a b

/-- Modelled from the spec: writing the full-length scalar series of the pair
`(a, b)`; the write auto-symmetrizes, setting both `(a, b)` and `(b, a)`. -/
def MatrixArray.setPair (M : MatrixArray F n L) (a b : Fin n) (v : Fin L → F) :
    MatrixArray F n L :=
  { M with data := fun i => Matrix.of fun c d =>
      if (c = a ∧ d = b) ∨ (c = b ∧ d = a) then v i else M.data i c d }

/-- Modelled from the spec: elementwise subtraction of two MatrixArrays,
validated for space compatibility. -/
def MatrixArray.sub (A B : MatrixArray F n L) :
    Except PrismError (MatrixArray F n L) :=
  if A.space = B.space then
    .ok { data := fun i => A.data i - B.data i, space := A.space }
  else .error .spaceMismatch

/-- Modelled from the spec: per-grid-point matrix multiplication (`dot`),
validated for space compatibility. -/
def MatrixArray.dot (A B : MatrixArray F n L) :
    Except PrismError (MatrixArray F n L) :=
  if A.space = B.space then
    .ok { data := fun i => A.data i * B.data i, space := A.space }
  else .error .spaceMismatch

/-- Modelled from the spec: elementwise division of a MatrixArray by a
per-grid-point scalar array, broadcast over each rank-by-rank block. -/
def MatrixArray.divGrid (M : MatrixArray F n L) (v : Fin L → F) :
    MatrixArray F n L :=
  { M with data := fun i => Matrix.of fun a b => M.data i a b / v i }

/-- Modelled from the spec: elementwise multiplication of a MatrixArray by a
single rank-by-rank matrix, broadcast over every grid point (used to scale
omega by the site-density matrix). -/
def MatrixArray.mulBlock (M : MatrixArray F n L)
    (ρ : Matrix (Fin n) (Fin n) F) : MatrixArray F n L :=
  { M with data := fun i => Matrix.of fun a b => M.data i a b * ρ a b }

/-- Modelled from the spec: elementwise division of a MatrixArray by a single
rank-by-rank matrix, broadcast over every grid point (used to normalize the
total correlation by the pair-density matrix). -/
def MatrixArray.divBlock (M : MatrixArray F n L)
    (ρ : Matrix (Fin n) (Fin n) F) : MatrixArray F n L :=
  { M with data := fun i => Matrix.of fun a b => M.data i a b / ρ a b }

/-- Matrix inverse over a field by the adjugate formula; meaningful whenever
the determinant is nonzero (the only situation in which `MatrixArray.invert`
uses it). -/
def matInv (A : Matrix (Fin n) (Fin n) F) : Matrix (Fin n) (Fin n) F :=
  (A.det)⁻¹ • A.adjugate

/-- Modelled from the spec: per-grid-point matrix inversion; fails with a
singular-matrix condition reporting the first failing grid index if any
per-point block is non-invertible. -/
def MatrixArray.invert (M : MatrixArray F n L) :
    Except PrismError (MatrixArray F n L) :=
  match (List.finRange L).find? (fun i => decide ((M.data i).det = 0)) with
  | some i => .error (.singularMatrix i.val)
  | none => .ok { M with data := fun i => matInv (M.data i) }

/-- Modelled from the spec: `typyPRISM.core.Domain` as consumed by the solver -
the reciprocal axis `k`, the change-of-variables scaling vector `long_r`, and
the scalar-series transforms between real and Fourier space. -/
structure Domain (F : Type) (L : ℕ) where
  k : Fin L → F
  long_r : Fin L → F
  to_fourier : (Fin L → F) → (Fin L → F)
  to_real : (Fin L → F) → (Fin L → F)

/-- Modelled from the spec: `Domain.MatrixArray_to_fourier` applies the scalar
transform to every `(row, col)` series of a real-space MatrixArray and flips
its space tag; calling it on a Fourier-space field fails loudly. -/
def Domain.MatrixArray_to_fourier (d : Domain F L) (M : MatrixArray F n L) :
    Except PrismError (MatrixArray F n L) :=
  if M.space = Space.Real then
    .ok { data := fun i => Matrix.of fun a b => d.to_fourier (M.getSeries a b) i,
          space := Space.Fourier }
  else .error .spaceMismatch

/-- Modelled from the spec: `Domain.MatrixArray_to_real`, the inverse-direction
companion of `Domain.MatrixArray_to_fourier`. -/
def Domain.MatrixArray_to_real (d : Domain F L) (M : MatrixArray F n L) :
    Except PrismError (MatrixArray F n L) :=
  if M.space = Space.Fourier then
    .ok { data := fun i => Matrix.of fun a b => d.to_real (M.getSeries a b) i,
          space := Space.Real }
  else .error .spaceMismatch

/-- Closure variants dispatched on by `PRISM.funk` (lines 154-160 of
`src/typyPRISM/core/PRISM.py`): an `AtomicClosure` carrying its `calculate`
method, a `MolecularClosure`, and any other object (the `else` branch of the
`isinstance` dispatch). -/
inductive Closure (F : Type) (L : ℕ) where
  | atomic (calculate : (Fin L → F) → Except PrismError (Fin L → F)) : Closure F L
  | molecular : Closure F L
  | other : Closure F L

/-- Dispatch of `PRISM.funk` on one pair's closure (lines 155-160 of
`src/typyPRISM/core/PRISM.py`): atomic closures are invoked via `calculate`,
molecular closures raise `NotImplementedError`, anything else raises
`ValueError('Closure type not recognized')`. -/
def applyClosure (c : Closure F L) (γ : Fin L → F) :
    Except PrismError (Fin L → F) :=
  match c with
  | .atomic calculate => calculate γ
  | .molecular => .error .notImplemented
  | .other => .error .closureNotRecognized

/-- Modelled from the spec: the unordered site-type pairs `(t1, t2)` with
`t1 ≤ t2` yielded by `PairTable.iterpairs` (whose source is not part of this
snapshot). -/
def iterpairs (n : ℕ) : List (Fin n × Fin n) :=
  ((List.finRange n) ×ˢ (List.finRange n)).filter (fun p => decide (p.1 ≤ p.2))

/-- Loop body of the closure dispatch in `PRISM.funk`: process the listed
pairs in order, writing each computed direct-correlation series symmetrically
into the accumulating MatrixArray, and stop at the first raised error (the
array mutations already performed are kept, as in the Python original). -/
def computeDCGo (cl : Fin n → Fin n → Closure F L) (Gin : MatrixArray F n L) :
    List (Fin n × Fin n) → MatrixArray F n L →
      MatrixArray F n L × Except PrismError Unit
  | [], dC => (dC, .ok ())
  | (t1, t2) :: rest, dC =>
    match applyClosure (cl t1 t2) (Gin.getSeries t1 t2) with
    | .ok v => computeDCGo cl Gin rest (dC.setPair t1 t2 v)
    | .error e => (dC, .error e)

/-- The closure-dispatch loop of `PRISM.funk` (lines 153-160 of
`src/typyPRISM/core/PRISM.py`), starting from the direct-correlation buffer
with its space tag reset to Real. -/
def computeDirectCorr (cl : Fin n → Fin n → Closure F L)
    (Gin dC : MatrixArray F n L) :
    MatrixArray F n L × Except PrismError Unit :=
  computeDCGo cl Gin (iterpairs n) dC

/-- Flattened cost-function vectors of length `rank*rank*length`, the shape of
`self.x`/`self.y` in `PRISM.__init__` and of the root-finder's iterates. -/
abbrev Vec (F : Type) (n L : ℕ) := Fin (n * n * L) → F

theorem flatIdx_lt {n L : ℕ} (i : Fin L) (a b : Fin n) :
    i.val * (n * n) + a.val * n + b.val < n * n * L := by
  have hi := i.isLt
  have ha := a.isLt
  have hb := b.isLt
  have h1 : a.val * n + b.val < n * n := by
    calc a.val * n + b.val < a.val * n + n := by omega
    _ = (a.val + 1) * n := by ring
    _ ≤ n * n := Nat.mul_le_mul_right n ha
  have h2 : (i.val + 1) * (n * n) ≤ L * (n * n) := Nat.mul_le_mul_right _ hi
  calc i.val * (n * n) + a.val * n + b.val
      < i.val * (n * n) + n * n := by omega
    _ = (i.val + 1) * (n * n) := by ring
    _ ≤ L * (n * n) := h2
    _ = n * n * L := by ring

/-- Position of entry `(i, a, b)` of an array of shape `(L, n, n)` inside its
row-major flattening, as produced by `x.reshape((-1, n, n))` /
`y.reshape((-1,))` in `PRISM.funk`. -/
def flatIdx (i : Fin L) (a b : Fin n) : Fin (n * n * L) :=
  ⟨i.val * (n * n) + a.val * n + b.val, flatIdx_lt i a b⟩

theorem unflat_grid_lt {n L : ℕ} (t : Fin (n * n * L)) : t.val / (n * n) < L := by
  have ht := t.isLt
  exact Nat.div_lt_of_lt_mul ht

theorem unflat_row_lt {n L : ℕ} (t : Fin (n * n * L)) :
    t.val % (n * n) / n < n := by
  have ht := t.isLt
  have hn : 0 < n := by
    rcases Nat.eq_zero_or_pos n with h | h
    · subst h; simp at ht
    · exact h
  have h1 : t.val % (n * n) < n * n := Nat.mod_lt _ (by positivity)
  exact Nat.div_lt_of_lt_mul h1

theorem unflat_col_lt {n L : ℕ} (t : Fin (n * n * L)) : t.val % n < n := by
  have ht := t.isLt
  have hn : 0 < n := by
    rcases Nat.eq_zero_or_pos n with h | h
    · subst h; simp at ht
    · exact h
  exact Nat.mod_lt _ hn

/-- Row-major flattening of an `(L, n, n)` array into a vector of length
`n*n*L` (the `reshape((-1,))` applied to `self.y` in `PRISM.funk`). -/
def flatten (g : Fin L → Matrix (Fin n) (Fin n) F) : Vec F n L :=
  fun t => g ⟨t.val / (n * n), unflat_grid_lt t⟩
    ⟨t.val % (n * n) / n, unflat_row_lt t⟩ ⟨t.val % n, unflat_col_lt t⟩

/-- Modelled from the spec: the System Specification consumed by the solver -
the domain, the pair-indexed closure table, the pair-indexed intramolecular
correlation providers (each a function of the reciprocal axis `k`), and the
pair/site density matrices. -/
structure System (F : Type) (n L : ℕ) where
  domain : Domain F L
  closure : Fin n → Fin n → Closure F L
  omega : Fin n → Fin n → (Fin L → F) → (Fin L → F)
  pairDensityMatrix : Matrix (Fin n) (Fin n) F
  siteDensityMatrix : Matrix (Fin n) (Fin n) F

/-- State of a `typyPRISM.core.PRISM` object: the deep-copied system plus the
pre-allocated working buffers (`self.x`, `self.y`, `omega`, `directCorr`,
`totalCorr`, `GammaIn`, `GammaOut`, `OC`, `I`; `IOC` is only created on the
first call to `funk`, hence the `Option`). -/
structure PRISM (F : Type) (n L : ℕ) where
  sys : System F n L
  x : Vec F n L
  y : Vec F n L
  omega : MatrixArray F n L
  directCorr : MatrixArray F n L
  totalCorr : MatrixArray F n L
  GammaIn : MatrixArray F n L
  GammaOut : MatrixArray F n L
  OC : MatrixArray F n L
  IOC : Option (MatrixArray F n L)
  I : MatrixArray F n L

/-- Embedding of `PRISM.__init__` (lines 95-115 of
`src/typyPRISM/core/PRISM.py`): deep-copy the system (value semantics),
zero-initialize `x`/`y`, evaluate every intramolecular-correlation provider on
`domain.k` and scale by the site-density matrix to obtain `omega` (tagged
Fourier), and pre-allocate the remaining buffers with the space tags of lines
110-115. -/
def PRISM.construct (sys : System F n L) : PRISM F n L :=
  { sys := sys
    x := fun _ => 0
    y := fun _ => 0
    omega := MatrixArray.mulBlock
      { data := fun i => Matrix.of fun a b => sys.omega a b sys.domain.k i,
        space := Space.Fourier } sys.siteDensityMatrix
    directCorr := { data := fun _ => 0, space := Space.Real }
    totalCorr := { data := fun _ => 0, space := Space.Fourier }
    GammaIn := { data := fun _ => 0, space := Space.Real }
    GammaOut := { data := fun _ => 0, space := Space.Real }
    OC := { data := fun _ => 0, space := Space.Fourier }
    IOC := none
    I := { data := fun _ => 1, space := Space.Fourier } }

/-- Lines 148-149 of `PRISM.funk`: reshape the input vector into the
`GammaIn` buffer (keeping that buffer's space tag) and divide elementwise by
`long_r` to undo the stabilizing change of variables. -/
def funkGammaIn (p : PRISM F n L) (x : Vec F n L) : MatrixArray F n L :=
  MatrixArray.divGrid
    { data := fun i => Matrix.of fun a b => x (flatIdx i a b),
      space := p.GammaIn.space }
    p.sys.domain.long_r

/-- Lines 153-160 of `PRISM.funk`: reset the `directCorr` buffer's space tag
to Real and run the closure-dispatch loop over all unordered site-type
pairs. -/
def funkDirectCorr (p : PRISM F n L) (x : Vec F n L) :
    MatrixArray F n L × Except PrismError Unit :=
  computeDirectCorr p.sys.closure (funkGammaIn p x)
    { p.directCorr with space := Space.Real }

/-- Embedding of the cost function `PRISM.funk` (lines 120-177 of
`src/typyPRISM/core/PRISM.py`).  The returned pair carries the mutated solver
state (buffers updated exactly as far as the Python original would have before
an exception) together with either the flattened residual or the raised
error. -/
def funk (p : PRISM F n L) (x : Vec F n L) :
    PRISM F n L × Except PrismError (Vec F n L) :=
  let GammaIn := funkGammaIn p x
  let p1 : PRISM F n L := { p with x := x, GammaIn := GammaIn }
  match funkDirectCorr p x with
  | (dC, .error e) => ({ p1 with directCorr := dC }, .error e)
  | (dC, .ok ()) =>
    match p.sys.domain.MatrixArray_to_fourier dC with
    | .error e => ({ p1 with directCorr := dC }, .error e)
    | .ok dCf =>
      let p2 := { p1 with directCorr := dCf }
      match p.omega.dot dCf with
      | .error e => (p2, .error e)
      | .ok oc =>
        let p3 := { p2 with OC := oc }
        match p.I.sub oc with
        | .error e => (p3, .error e)
        | .ok ioc0 =>
          match ioc0.invert with
          | .error e => ({ p3 with IOC := some ioc0 }, .error e)
          | .ok ioc =>
            let p4 := { p3 with IOC := some ioc }
            match ioc.dot oc with
            | .error e => (p4, .error e)
            | .ok t1 =>
              match t1.dot p.omega with
              | .error e => (p4, .error e)
              | .ok t2 =>
                let totalCorr := t2.divBlock p.sys.pairDensityMatrix
                let p5 := { p4 with totalCorr := totalCorr }
                match totalCorr.sub dCf with
                | .error e => (p5, .error e)
                | .ok g0 =>
                  match p.sys.domain.MatrixArray_to_real g0 with
                  | .error e => ({ p5 with GammaOut := g0 }, .error e)
                  | .ok gOut =>
                    let y := flatten (fun i => Matrix.of fun a b =>
                      p.sys.domain.long_r i * (gOut.data i a b - GammaIn.data i a b))
                    ({ p5 with GammaOut := gOut, y := y }, .ok y)

/-- Embedding of `PRISM.solve` (lines 179-208 of
`src/typyPRISM/core/PRISM.py`): seed with an all-zeros vector of length
`rank*rank*length` when no guess is supplied, pass a supplied guess through
unchanged, and hand the cost function and the seed to the (external,
abstracted) root-finding algorithm. -/
def solve (p : PRISM F n L) {R : Type}
    (rootFinder : (Vec F n L → PRISM F n L × Except PrismError (Vec F n L)) →
      Vec F n L → R)
    (guess : Option (Vec F n L)) : R :=
  let g : Vec F n L :=
    match guess with
    | none => fun _ => 0
    | some g => g
  rootFinder (funk p) g

/-- State of a `typyPRISM.closure.PercusYevick` object: the bound potential
and the last computed value (`__init__` sets both to `None`).  Scalar series
are lists, matching the sequence semantics of the NumPy arrays involved. -/
structure PercusYevick (F : Type) where
  potential : Option (List F)
  value : Option (List F)

/-- Embedding of `PercusYevick.calculate` (lines 26-34 of
`src/typyPRISM/closure/PercusYevick.py`): assert that a potential is bound,
assert that `gamma` matches the potential's length, then compute
`(exp(-U) - 1) * (1 + gamma)` elementwise, store it in `self.value` and
return it.  The elementwise exponential is passed in as `ex` (modelling
`np.exp`). -/
def PercusYevick.calculate (ex : F → F) (c : PercusYevick F) (gamma : List F) :
    PercusYevick F × Except String (List F) :=
  match c.potential with
  | none => (c, .error "Potential for this closure is not set!")
  | some U =>
    if gamma.length = U.length then
      let v := List.zipWith (fun u g => (ex (-u) - 1) * (1 + g)) U gamma
      ({ c with value := some v }, .ok v)
    else (c, .error "Domain mismatch!")

/-- Fourier transform of the direct correlation produced by the closure loop
of `funk`, exactly as the claimed functional formula reads it (applying the
domain's scalar transform to every pair series and tagging Fourier). -/
def ozFourierDC (p : PRISM F n L) (x : Vec F n L) : MatrixArray F n L :=
  { data := fun i => Matrix.of fun a b =>
      p.sys.domain.to_fourier ((funkDirectCorr p x).1.getSeries a b) i,
    space := Space.Fourier }

/-- Per-grid-point matrix `I - omega * directCorr` of the claimed functional
formula (`IOC`). -/
def ozIOC (p : PRISM F n L) (x : Vec F n L) :
    Fin L → Matrix (Fin n) (Fin n) F :=
  fun i => 1 - p.omega.data i * (ozFourierDC p x).data i

/-- Per-grid-point total correlation of the claimed functional formula:
`IOC⁻¹ * OC * omega`, divided elementwise by the pair-density matrix. -/
def ozTotalCorr (p : PRISM F n L) (x : Vec F n L) :
    Fin L → Matrix (Fin n) (Fin n) F :=
  fun i => Matrix.of fun a b =>
    (matInv (ozIOC p x i) * (p.omega.data i * (ozFourierDC p x).data i) *
        p.omega.data i) a b / p.sys.pairDensityMatrix a b

/-- Real-space `GammaOut` of the claimed functional formula:
`totalCorr - directCorr` transformed back to real space series by series. -/
def ozGammaOut (p : PRISM F n L) (x : Vec F n L) :
    Fin L → Matrix (Fin n) (Fin n) F :=
  fun i => Matrix.of fun a b =>
    p.sys.domain.to_real
      (fun j => ozTotalCorr p x j a b - (ozFourierDC p x).data j a b) i

/-- Residual of the claimed functional formula: the flattening of
`long_r * (GammaOut - GammaIn)` with `GammaIn` the reshaped input divided
elementwise by `long_r`. -/
def ozResidual (p : PRISM F n L) (x : Vec F n L) : Vec F n L :=
  flatten (fun i => Matrix.of fun a b =>
    p.sys.domain.long_r i * (ozGammaOut p x i a b - (funkGammaIn p x).data i a b))

/-- Modelled from the spec: a heap of caller-visible `System` objects, used to
express the reference/mutation semantics of the Python caller handing
`PRISM.__init__` a system object (`self.sys = deepcopy(sys)`). -/
structure Store (F : Type) (n L : ℕ) where
  mem : ℕ → System F n L
  next : ℕ

/-- Overwriting the system object held at address `r` of the store (an
external caller mutating its specification object). -/
def Store.write (st : Store F n L) (r : ℕ) (s : System F n L) : Store F n L :=
  { st with mem := fun a => if a = r then s else st.mem a }

/-- Heap-level reading of `PRISM.__init__`'s `deepcopy`: construction from the
system at address `r` allocates a fresh cell holding an independent copy of
that system; the solver keeps the fresh address, never the caller's. -/
def constructStore (st : Store F n L) (r : ℕ) : Store F n L :=
  { mem := fun a => if a = st.next then st.mem r else st.mem a,
    next := st.next + 1 }

/-- Address of the solver's private deep copy created by `constructStore`. -/
def constructRefId (st : Store F n L) (_r : ℕ) : ℕ := st.next

/-- Solver state built by `PRISM.__init__` from the system at address `r`. -/
def constructSolver (st : Store F n L) (r : ℕ) : PRISM F n L :=
  PRISM.construct (st.mem r)

/-- One functional evaluation of a solver whose `self.sys` lives at heap
address `r`: the system is read back through the heap, then `funk` runs. -/
def funkRef (st : Store F n L) (p : PRISM F n L) (r : ℕ) (x : Vec F n L) :
    PRISM F n L × Except PrismError (Vec F n L) :=
  funk { p with sys := st.mem r } x

/-- One `solve` call of a solver whose `self.sys` lives at heap address `r`. -/
def solveRef (st : Store F n L) (p : PRISM F n L) (r : ℕ) {R : Type}
    (rootFinder : (Vec F n L → PRISM F n L × Except PrismError (Vec F n L)) →
      Vec F n L → R)
    (guess : Option (Vec F n L)) : R :=
  solve { p with sys := st.mem r } rootFinder guess

/-- Cell `(a, b)` of the direct-correlation array is written while processing
the pair list `P` (each processed pair `(t1, t2)` writes the two symmetric
cells `(t1, t2)` and `(t2, t1)`). -/
def writtenBy (P : List (Fin n × Fin n)) (a b : Fin n) : Prop :=
  ∃ p ∈ P, (p.1 = a ∧ p.2 = b) ∨ (p.1 = b ∧ p.2 = a)

theorem mem_iterpairs {n : ℕ} (a b : Fin n) :
    (a, b) ∈ iterpairs n ↔ a ≤ b := by
  simp [iterpairs, List.mem_filter, List.mem_product, List.mem_finRange]

theorem writtenBy_iterpairs {n : ℕ} (a b : Fin n) : writtenBy (iterpairs n) a b := by
  rcases le_total a b with h | h
  · exact ⟨(a, b), (mem_iterpairs a b).mpr h, Or.inl ⟨rfl, rfl⟩⟩
  · exact ⟨(b, a), (mem_iterpairs b a).mpr h, Or.inr ⟨rfl, rfl⟩⟩

theorem computeDCGo_space (cl : Fin n → Fin n → Closure F L)
    (Gin : MatrixArray F n L) (P : List (Fin n × Fin n)) (d : MatrixArray F n L) :
    ((computeDCGo cl Gin P d).1).space = d.space := by
  induction P generalizing d with
  | nil => rfl
  | cons q rest ih =>
    obtain ⟨t1, t2⟩ := q
    simp only [computeDCGo]
    cases applyClosure (cl t1 t2) (Gin.getSeries t1 t2) with
    | ok v => exact ih (d.setPair t1 t2 v)
    | error e => rfl

theorem computeDCGo_congr (cl : Fin n → Fin n → Closure F L)
    (Gin : MatrixArray F n L) (P : List (Fin n × Fin n))
    (d1 d2 : MatrixArray F n L) (hsp : d1.space = d2.space)
    (hdat : ∀ i a b, ¬ writtenBy P a b → d1.data i a b = d2.data i a b) :
    (computeDCGo cl Gin P d1).2 = (computeDCGo cl Gin P d2).2 ∧
      ((computeDCGo cl Gin P d1).2 = .ok () →
        computeDCGo cl Gin P d1 = computeDCGo cl Gin P d2) := by
  induction P generalizing d1 d2 with
  | nil =>
    have hd : d1 = d2 := by
      obtain ⟨dat1, sp1⟩ := d1
      obtain ⟨dat2, sp2⟩ := d2
      simp only at hsp hdat
      have hdd : dat1 = dat2 := by
        funext i a b
        exact hdat i a b (by rintro ⟨p, hp, _⟩; exact (List.not_mem_nil p) hp)
      rw [hdd, hsp]
    rw [hd]
    exact ⟨rfl, fun _ => rfl⟩
  | cons q rest ih =>
    obtain ⟨t1, t2⟩ := q
    simp only [computeDCGo]
    cases hac : applyClosure (cl t1 t2) (Gin.getSeries t1 t2) with
    | error e => exact ⟨rfl, by intro hok; exact absurd hok (by simp)⟩
    | ok v =>
      have hsp' : (d1.setPair t1 t2 v).space = (d2.setPair t1 t2 v).space := hsp
      have hdat' : ∀ i a b, ¬ writtenBy rest a b →
          (d1.setPair t1 t2 v).data i a b = (d2.setPair t1 t2 v).data i a b := by
        intro i a b hnr
        simp only [MatrixArray.setPair, Matrix.of_apply]
        split_ifs with hcell
        · rfl
        · refine hdat i a b ?_
          rintro ⟨p, hp, hor⟩
          rcases List.mem_cons.mp hp with hhd | htl
          · subst hhd
            rcases hor with ⟨h1, h2⟩ | ⟨h1, h2⟩
            · exact hcell (Or.inl ⟨h1.symm, h2.symm⟩)
            · exact hcell (Or.inr ⟨h2.symm, h1.symm⟩)
          · exact hnr ⟨p, htl, hor⟩
      exact ih (d1.setPair t1 t2 v) (d2.setPair t1 t2 v) hsp' hdat'

theorem computeDCGo_fails_of_mem (cl : Fin n → Fin n → Closure F L)
    (Gin : MatrixArray F n L) (t1 t2 : Fin n)
    (hbad : ∀ γ, ∃ e, applyClosure (cl t1 t2) γ = .error e)
    (P : List (Fin n × Fin n)) (hmem : (t1, t2) ∈ P) (d : MatrixArray F n L) :
    (computeDCGo cl Gin P d).2 ≠ .ok () := by
  induction P generalizing d with
  | nil => exact absurd hmem (List.not_mem_nil _)
  | cons q rest ih =>
    obtain ⟨s1, s2⟩ := q
    simp only [computeDCGo]
    cases hac : applyClosure (cl s1 s2) (Gin.getSeries s1 s2) with
    | error e => simp
    | ok v =>
      rcases List.mem_cons.mp hmem with hhd | htl
      · rw [Prod.ext_iff] at hhd
        obtain ⟨h1, h2⟩ := hhd
        subst h1
        subst h2
        obtain ⟨e, he⟩ := hbad (Gin.getSeries t1 t2)
        rw [hac] at he
        exact absurd he (by simp)
      · exact ih htl (d.setPair s1 s2 v)

/-- Result component of `funk` expressed as a function of exactly the solver
components the cost function reads: the deep-copied system, the precomputed
`omega`, the identity buffer, the stale direct-correlation buffer, the
`GammaIn` buffer's space tag, and the input vector. -/
def funkSnd (sys : System F n L) (Ω Id dC0 : MatrixArray F n L) (gsp : Space)
    (x : Vec F n L) : Except PrismError (Vec F n L) :=
  let GammaIn := MatrixArray.divGrid
    { data := fun i => Matrix.of fun a b => x (flatIdx i a b), space := gsp }
    sys.domain.long_r
  match computeDirectCorr sys.closure GammaIn { dC0 with space := Space.Real } with
  | (_, .error e) => .error e
  | (dC, .ok ()) =>
    match sys.domain.MatrixArray_to_fourier dC with
    | .error e => .error e
    | .ok dCf =>
      match Ω.dot dCf with
      | .error e => .error e
      | .ok oc =>
        match Id.sub oc with
        | .error e => .error e
        | .ok ioc0 =>
          match ioc0.invert with
          | .error e => .error e
          | .ok ioc =>
            match ioc.dot oc with
            | .error e => .error e
            | .ok t1 =>
              match t1.dot Ω with
              | .error e => .error e
              | .ok t2 =>
                let totalCorr := t2.divBlock sys.pairDensityMatrix
                match totalCorr.sub dCf with
                | .error e => .error e
                | .ok g0 =>
                  match sys.domain.MatrixArray_to_real g0 with
                  | .error e => .error e
                  | .ok gOut => .ok (flatten (fun i => Matrix.of fun a b =>
                      sys.domain.long_r i * (gOut.data i a b - GammaIn.data i a b)))

theorem funk_snd_eq (p : PRISM F n L) (x : Vec F n L) :
    (funk p x).2 = funkSnd p.sys p.omega p.I p.directCorr p.GammaIn.space x := by
  unfold funk funkSnd funkDirectCorr funkGammaIn
  dsimp only
  repeat' (first | rfl | split)

theorem funk_fst_sys (p : PRISM F n L) (x : Vec F n L) :
    ((funk p x).1).sys = p.sys := by
  unfold funk
  dsimp only
  repeat' (first | rfl | split)

theorem funk_fst_omega (p : PRISM F n L) (x : Vec F n L) :
    ((funk p x).1).omega = p.omega := by
  unfold funk
  dsimp only
  repeat' (first | rfl | split)

theorem funk_fst_I (p : PRISM F n L) (x : Vec F n L) :
    ((funk p x).1).I = p.I := by
  unfold funk
  dsimp only
  repeat' (first | rfl | split)

theorem funk_fst_GammaIn_space (p : PRISM F n L) (x : Vec F n L) :
    ((funk p x).1).GammaIn.space = p.GammaIn.space := by
  unfold funk
  dsimp only
  repeat' (first | rfl | split)

theorem funkSnd_congr_dC (sys : System F n L) (Ω Id d1 d2 : MatrixArray F n L)
    (gsp : Space) (x : Vec F n L) :
    funkSnd sys Ω Id d1 gsp x = funkSnd sys Ω Id d2 gsp x := by
  have hcongr := computeDCGo_congr sys.closure
    (MatrixArray.divGrid
      { data := fun i => Matrix.of fun a b => x (flatIdx i a b), space := gsp }
      sys.domain.long_r)
    (iterpairs n) { data := d1.data, space := Space.Real }
    { data := d2.data, space := Space.Real }
    rfl (fun i a b hw => absurd (writtenBy_iterpairs a b) hw)
  unfold funkSnd
  dsimp only
  rcases h1 : computeDirectCorr sys.closure
      (MatrixArray.divGrid
        { data := fun i => Matrix.of fun a b => x (flatIdx i a b), space := gsp }
        sys.domain.long_r) { data := d1.data, space := Space.Real } with ⟨dC1, r1⟩
  rcases h2 : computeDirectCorr sys.closure
      (MatrixArray.divGrid
        { data := fun i => Matrix.of fun a b => x (flatIdx i a b), space := gsp }
        sys.domain.long_r) { data := d2.data, space := Space.Real } with ⟨dC2, r2⟩
  have hh1 : computeDCGo sys.closure
      (MatrixArray.divGrid
        { data := fun i => Matrix.of fun a b => x (flatIdx i a b), space := gsp }
        sys.domain.long_r) (iterpairs n) { data := d1.data, space := Space.Real }
      = (dC1, r1) := h1
  have hh2 : computeDCGo sys.closure
      (MatrixArray.divGrid
        { data := fun i => Matrix.of fun a b => x (flatIdx i a b), space := gsp }
        sys.domain.long_r) (iterpairs n) { data := d2.data, space := Space.Real }
      = (dC2, r2) := h2
  have hr : r1 = r2 := by
    have hs := hcongr.1
    rw [hh1, hh2] at hs
    exact hs
  cases r2 with
  | error e =>
    subst hr
    rfl
  | ok u =>
    cases u
    subst hr
    have hpair := hcongr.2 (by rw [hh1])
    rw [hh1, hh2] at hpair
    have hdC : dC1 = dC2 := by
      have := congrArg Prod.fst hpair
      simpa using this
    subst hdC
    rfl

/-- C7: for every solver state and every input vector `x`, calling the cost
function twice in succession with the same `x` produces identical residual
results - the buffer mutations performed by the first call (including stale
space tags) do not change the outcome of the second call. -/
theorem funk_idempotent (p : PRISM F n L) (x : Vec F n L) :
    (funk (funk p x).1 x).2 = (funk p x).2 := by
  rw [funk_snd_eq, funk_snd_eq, funk_fst_sys, funk_fst_omega, funk_fst_I,
    funk_fst_GammaIn_space]
  exact funkSnd_congr_dC p.sys p.omega p.I ((funk p x).1).directCorr
    p.directCorr p.GammaIn.space x

/-- C1: for every input vector `x` of length `rank*rank*length`, whenever the
closure loop succeeds and every per-point `IOC` block is invertible, `funk`
computes `OC = omega * directCorr` per grid point, `IOC = I - OC`, inverts
`IOC` in place, sets `totalCorr` to `IOC⁻¹ * OC * omega` divided elementwise
by `pairDensityMatrix`, and returns as residual the flattened vector
`long_r * (GammaOut - GammaIn)`, with `GammaIn` the reshaped input divided
elementwise by `long_r` and `GammaOut` equal to `totalCorr - directCorr`
transformed to real space. -/
theorem funk_oz_residual (p : PRISM F n L) (x : Vec F n L)
    (hΩ : p.omega.space = Space.Fourier)
    (hIsp : p.I.space = Space.Fourier)
    (hIdata : p.I.data = fun _ => 1)
    (h1 : (funkDirectCorr p x).2 = Except.ok ())
    (h2 : ∀ i, (ozIOC p x i).det ≠ 0) :
    (funk p x).2 = Except.ok (ozResidual p x) := by
  rcases hdc : funkDirectCorr p x with ⟨dC, r⟩
  rw [hdc] at h1
  simp only at h1
  subst h1
  have hdCsp : dC.space = Space.Real := by
    have h := computeDCGo_space p.sys.closure (funkGammaIn p x) (iterpairs n)
      { p.directCorr with space := Space.Real }
    have h3 : (funkDirectCorr p x).1.space = Space.Real := h
    rw [hdc] at h3
    exact h3
  have hfour : p.sys.domain.MatrixArray_to_fourier dC = .ok (ozFourierDC p x) := by
    unfold Domain.MatrixArray_to_fourier
    rw [if_pos hdCsp]
    unfold ozFourierDC
    rw [hdc]
  have hdfsp : (ozFourierDC p x).space = Space.Fourier := rfl
  have hdot1 : p.omega.dot (ozFourierDC p x)
      = .ok { data := fun i => p.omega.data i * (ozFourierDC p x).data i,
              space := p.omega.space } := by
    unfold MatrixArray.dot
    rw [if_pos (by rw [hΩ, hdfsp])]
  have hsub1 : p.I.sub
      { data := fun i => p.omega.data i * (ozFourierDC p x).data i,
        space := p.omega.space }
      = .ok { data := fun i => ozIOC p x i, space := p.I.space } := by
    unfold MatrixArray.sub
    rw [if_pos (by rw [hΩ, hIsp])]
    unfold ozIOC
    rw [hIdata]
  have hfind : (List.finRange L).find?
      (fun i => decide ((ozIOC p x i).det = 0)) = none := by
    rw [List.find?_eq_none]
    intro i _
    simp [h2 i]
  have hinv : MatrixArray.invert
      { data := fun i => ozIOC p x i, space := p.I.space }
      = .ok { data := fun i => matInv (ozIOC p x i), space := p.I.space } := by
    unfold MatrixArray.invert
    rw [hfind]
  have hdot2 : MatrixArray.dot
      { data := fun i => matInv (ozIOC p x i), space := p.I.space }
      { data := fun i => p.omega.data i * (ozFourierDC p x).data i,
        space := p.omega.space }
      = .ok { data := fun i => matInv (ozIOC p x i) *
                (p.omega.data i * (ozFourierDC p x).data i),
              space := p.I.space } := by
    unfold MatrixArray.dot
    rw [if_pos (by rw [hΩ, hIsp])]
  have hdot3 : MatrixArray.dot
      { data := fun i => matInv (ozIOC p x i) *
          (p.omega.data i * (ozFourierDC p x).data i),
        space := p.I.space } p.omega
      = .ok { data := fun i => matInv (ozIOC p x i) *
                (p.omega.data i * (ozFourierDC p x).data i) * p.omega.data i,
              space := p.I.space } := by
    unfold MatrixArray.dot
    rw [if_pos (by rw [hΩ, hIsp])]
  have hsub2 : MatrixArray.sub
      (MatrixArray.divBlock
        { data := fun i => matInv (ozIOC p x i) *
            (p.omega.data i * (ozFourierDC p x).data i) * p.omega.data i,
          space := p.I.space } p.sys.pairDensityMatrix)
      (ozFourierDC p x)
      = .ok { data := fun i =>
                (Matrix.of fun a b =>
                  (matInv (ozIOC p x i) *
                    (p.omega.data i * (ozFourierDC p x).data i) * p.omega.data i) a b /
                    p.sys.pairDensityMatrix a b) - (ozFourierDC p x).data i,
              space := p.I.space } := by
    unfold MatrixArray.sub MatrixArray.divBlock
    rw [if_pos (by rw [hIsp, hdfsp])]
  have htoreal : p.sys.domain.MatrixArray_to_real
      { data := fun i =>
          (Matrix.of fun a b =>
            (matInv (ozIOC p x i) *
              (p.omega.data i * (ozFourierDC p x).data i) * p.omega.data i) a b /
              p.sys.pairDensityMatrix a b) - (ozFourierDC p x).data i,
        space := p.I.space }
      = .ok { data := fun i => Matrix.of fun a b =>
                p.sys.domain.to_real (MatrixArray.getSeries
                  { data := fun j =>
                      (Matrix.of fun a b =>
                        (matInv (ozIOC p x j) *
                          (p.omega.data j * (ozFourierDC p x).data j) * p.omega.data j) a b /
                          p.sys.pairDensityMatrix a b) - (ozFourierDC p x).data j,
                    space := p.I.space } a b) i,
              space := Space.Real } := by
    unfold Domain.MatrixArray_to_real
    rw [if_pos hIsp]
  simp only [funk]
  rw [hdc]
  dsimp only
  rw [hfour]
  dsimp only
  rw [hdot1]
  dsimp only
  rw [hsub1]
  dsimp only
  rw [hinv]
  dsimp only
  rw [hdot2]
  dsimp only
  rw [hdot3]
  dsimp only
  rw [hsub2]
  dsimp only
  rw [htoreal]
  dsimp only
  congr 1

/-- C5: in every functional evaluation the dispatch on a pair's closure is
exhaustive: an atomic closure is invoked via its `calculate` method, a
molecular closure fails the evaluation with the not-implemented signal, and
any other closure variant fails it with the unrecognized-closure-type error;
neither failure branch is a silent no-op - with a molecular or unrecognized
closure on any pair, `funk` never returns a residual. -/
theorem closure_dispatch_exhaustive (p : PRISM F n L) (x : Vec F n L)
    (t1 t2 : Fin n) (hle : t1 ≤ t2)
    (hbad : p.sys.closure t1 t2 = Closure.molecular ∨
      p.sys.closure t1 t2 = Closure.other) :
    (∀ (f : (Fin L → F) → Except PrismError (Fin L → F)) γ,
        applyClosure (Closure.atomic f) γ = f γ) ∧
      (∀ γ : Fin L → F, applyClosure (Closure.molecular : Closure F L) γ
        = Except.error PrismError.notImplemented) ∧
      (∀ γ : Fin L → F, applyClosure (Closure.other : Closure F L) γ
        = Except.error PrismError.closureNotRecognized) ∧
      ∀ y, (funk p x).2 ≠ Except.ok y := by
  refine ⟨fun f γ => rfl, fun γ => rfl, fun γ => rfl, ?_⟩
  intro y
  have hfail : (funkDirectCorr p x).2 ≠ Except.ok () := by
    apply computeDCGo_fails_of_mem p.sys.closure (funkGammaIn p x) t1 t2
    · intro γ
      rcases hbad with hb | hb
      · exact ⟨PrismError.notImplemented, by rw [hb]; rfl⟩
      · exact ⟨PrismError.closureNotRecognized, by rw [hb]; rfl⟩
    · exact (mem_iterpairs t1 t2).mpr hle
  simp only [funk]
  rcases hdc : funkDirectCorr p x with ⟨dC, r⟩
  cases r with
  | error e => simp
  | ok u =>
    cases u
    exact absurd (by rw [hdc]) hfail

/-- C9: when `solve` is called without an initial guess, the root-finder is
seeded with the all-zeros vector of length `rank*rank*length` (the length of
`Vec F n L`); when a guess is supplied, that guess is passed through
unchanged. -/
theorem solve_seed (p : PRISM F n L) {R : Type}
    (rootFinder : (Vec F n L → PRISM F n L × Except PrismError (Vec F n L)) →
      Vec F n L → R) (g : Vec F n L) :
    solve p rootFinder none = rootFinder (funk p) (fun _ => 0) ∧
      solve p rootFinder (some g) = rootFinder (funk p) g :=
  ⟨rfl, rfl⟩

/-- C6: constructing a solver from the system object at heap address `r`
deep-copies it, so any later mutation of the caller's object leaves every
subsequent functional evaluation and every solve of that solver unchanged
(two-run noninterference between the caller's specification object and the
in-flight solve). -/
theorem deepcopy_isolation (st : Store F n L) (r : ℕ) (hr : r < st.next)
    (snew : System F n L) (x : Vec F n L) {R : Type}
    (rootFinder : (Vec F n L → PRISM F n L × Except PrismError (Vec F n L)) →
      Vec F n L → R) (guess : Option (Vec F n L)) :
    funkRef ((constructStore st r).write r snew) (constructSolver st r)
        (constructRefId st r) x
      = funkRef (constructStore st r) (constructSolver st r)
        (constructRefId st r) x ∧
      solveRef ((constructStore st r).write r snew) (constructSolver st r)
          (constructRefId st r) rootFinder guess
        = solveRef (constructStore st r) (constructSolver st r)
          (constructRefId st r) rootFinder guess := by
  have hmem : ((constructStore st r).write r snew).mem (constructRefId st r)
      = (constructStore st r).mem (constructRefId st r) := by
    unfold Store.write constructStore constructRefId
    dsimp only
    rw [if_neg (by omega)]
  constructor
  · unfold funkRef
    rw [hmem]
  · unfold solveRef
    rw [hmem]

/-- C8: MatrixArray pair access is symmetric - after setting the series for
pair `(a, b)`, getting pair `(b, a)` (and `(a, b)`) returns that same
full-length series, and every per-point matrix that was symmetric stays
symmetric under the set. -/
theorem setPair_get_symmetric (M : MatrixArray F n L) (a b : Fin n)
    (v : Fin L → F) (h : ∀ i (c d : Fin n), M.data i c d = M.data i d c) :
    (M.setPair a b v).getSeries b a = v ∧
      (M.setPair a b v).getSeries a b = v ∧
      ∀ i (c d : Fin n), (M.setPair a b v).data i c d
        = (M.setPair a b v).data i d c := by
  refine ⟨?_, ?_, ?_⟩
  · funext i
    unfold MatrixArray.setPair MatrixArray.getSeries
    dsimp only [Matrix.of_apply]
    rw [if_pos (Or.inr ⟨rfl, rfl⟩)]
  · funext i
    unfold MatrixArray.setPair MatrixArray.getSeries
    dsimp only [Matrix.of_apply]
    rw [if_pos (Or.inl ⟨rfl, rfl⟩)]
  · intro i c d
    unfold MatrixArray.setPair
    dsimp only [Matrix.of_apply]
    by_cases hP : (c = a ∧ d = b) ∨ (c = b ∧ d = a)
    · have hQ : (d = a ∧ c = b) ∨ (d = b ∧ c = a) := by tauto
      rw [if_pos hP, if_pos hQ]
    · have hQ : ¬ ((d = a ∧ c = b) ∨ (d = b ∧ c = a)) := by tauto
      rw [if_neg hP, if_neg hQ]
      exact h i c d

theorem zipWith_getD {α : Type} (f : α → α → α) (dflt : α) :
    ∀ (l1 l2 : List α) (j : ℕ), j < l1.length → j < l2.length →
      (List.zipWith f l1 l2).getD j dflt = f (l1.getD j dflt) (l2.getD j dflt) := by
  intro l1
  induction l1 with
  | nil =>
    intro l2 j h1 h2
    simp at h1
  | cons a t ih =>
    intro l2 j h1 h2
    cases l2 with
    | nil => simp at h2
    | cons b t2 =>
      cases j with
      | zero => rfl
      | succ j =>
        simp only [List.zipWith_cons_cons, List.getD_cons_succ]
        exact ih t2 j (by simpa using h1) (by simpa using h2)

/-- C2: for every bound potential `U` and every `gamma` of the same length,
the Percus-Yevick closure's `calculate` returns, at each grid point, exactly
`(exp (-U) - 1) * (1 + gamma)` (with `ex` the elementwise exponential
modelling `np.exp`). -/
theorem percusYevick_formula (ex : F → F) (c : PercusYevick F)
    (U gamma : List F) (hU : c.potential = some U)
    (hlen : gamma.length = U.length) :
    (c.calculate ex gamma).2
      = Except.ok (List.zipWith (fun u g => (ex (-u) - 1) * (1 + g)) U gamma) ∧
      ∀ j, j < gamma.length →
        (List.zipWith (fun u g => (ex (-u) - 1) * (1 + g)) U gamma).getD j 0
          = (ex (-(U.getD j 0)) - 1) * (1 + gamma.getD j 0) := by
  constructor
  · unfold PercusYevick.calculate
    rw [hU]
    dsimp only
    rw [if_pos hlen]
  · intro j hj
    exact zipWith_getD (fun u g => (ex (-u) - 1) * (1 + g)) 0 U gamma j
      (by omega) hj

/-- C4: for every Percus-Yevick closure with a bound potential and every
`gamma` whose length differs from the potential's length, `calculate` fails
with the domain-mismatch condition and neither returns a computed value nor
changes the closure's state. -/
theorem percusYevick_domain_mismatch (ex : F → F) (c : PercusYevick F)
    (U gamma : List F) (hU : c.potential = some U)
    (hlen : gamma.length ≠ U.length) :
    c.calculate ex gamma = (c, Except.error "Domain mismatch!") := by
  unfold PercusYevick.calculate
  rw [hU]
  dsimp only
  rw [if_neg hlen]

/-- C10: for every Percus-Yevick closure whose potential has not been bound,
`calculate` fails for every `gamma` with the condition
`Potential for this closure is not set!` and neither computes nor stores a
value. -/
theorem percusYevick_potential_not_set (ex : F → F) (c : PercusYevick F)
    (gamma : List F) (h : c.potential = none) :
    c.calculate ex gamma
      = (c, Except.error "Potential for this closure is not set!") := by
  unfold PercusYevick.calculate
  rw [h]

end TypyPRISM

namespace DST

/-- Modelled from the spec: the scalar-transform core of
`typyPRISM.core.Domain` (whose source is not part of this snapshot).  The
domain holds the grid-point count `length` and the real-space spacing `dr`;
the reciprocal spacing is fixed by the transform-pair consistency invariant
`dr * dk * (length + 1) = pi`. -/
structure Domain where
  length : ℕ
  dr : ℝ

/-- Modelled from the spec: the reciprocal-space grid spacing, derived from
`dr` and `length` by the transform-pair consistency invariant. -/
noncomputable def Domain.dk (d : Domain) : ℝ :=
  Real.pi / (d.dr * (d.length + 1))

/-- Modelled from the spec: `Domain.to_fourier`, a discrete sine transform of
type I with normalization factor `2 * dr` derived from the real-space
spacing. -/
noncomputable def Domain.to_fourier (d : Domain) (f : Fin d.length → ℝ) :
    Fin d.length → ℝ :=
  fun j => 2 * d.dr * ∑ i : Fin d.length,
    Real.sin (Real.pi * ((j.val : ℝ) + 1) * ((i.val : ℝ) + 1) / (d.length + 1)) * f i

/-- Modelled from the spec: `Domain.to_real`, the inverse discrete sine
transform with normalization factor `dk / pi` derived from the reciprocal
spacing. -/
noncomputable def Domain.to_real (d : Domain) (g : Fin d.length → ℝ) :
    Fin d.length → ℝ :=
  fun i => d.dk / Real.pi * ∑ j : Fin d.length,
    Real.sin (Real.pi * ((i.val : ℝ) + 1) * ((j.val : ℝ) + 1) / (d.length + 1)) * g j

/-- Full-period cosine sum: summing `cos (pi * m * k / (N + 1))` over one full
period `k = 0, ..., 2N + 1` gives zero unless `2 * (N + 1)` divides `m`. -/
theorem sum_cos_full (N : ℕ) (m : ℤ) (h : ¬ ((2 * (N + 1) : ℤ) ∣ m)) :
    ∑ k ∈ Finset.range (2 * (N + 1)),
      Real.cos (Real.pi * m * k / (N + 1)) = 0 := by
  have hN1 : ((N : ℝ) + 1) ≠ 0 := by positivity
  set θ : ℝ := Real.pi * m / (N + 1) with hθ
  set ζ : ℂ := Complex.exp (θ * Complex.I) with hζ
  have hcos : ∀ k : ℕ, Real.cos (Real.pi * m * k / (N + 1)) = (ζ ^ k).re := by
    intro k
    rw [hζ, ← Complex.exp_nat_mul, ← Complex.exp_ofReal_mul_I_re]
    have harg : ((Real.pi * m * k / (N + 1) : ℝ) : ℂ) * Complex.I
        = (k : ℂ) * ((θ : ℝ) * Complex.I) := by
      rw [hθ]
      push_cast
      ring
    rw [harg]
  have hζne : ζ ≠ 1 := by
    intro hone
    rw [hζ, Complex.exp_eq_one_iff] at hone
    obtain ⟨t, ht⟩ := hone
    apply h
    have h1 : ((θ : ℝ) : ℂ) = ((t * (2 * Real.pi) : ℝ) : ℂ) := by
      apply mul_right_cancel₀ Complex.I_ne_zero
      rw [ht]
      push_cast
      ring
    have h2 : θ = t * (2 * Real.pi) := by exact_mod_cast h1
    rw [hθ, div_eq_iff hN1] at h2
    have h4 : Real.pi * (m : ℝ) = Real.pi * (2 * t * ((N : ℝ) + 1)) :=
      h2.trans (by ring)
    have h3 := mul_left_cancel₀ Real.pi_ne_zero h4
    refine ⟨t, ?_⟩
    have h5 : (m : ℝ) = ((2 * (N + 1) * t : ℤ) : ℝ) := by rw [h3]; push_cast; ring
    exact_mod_cast h5
  have hζpow : ζ ^ (2 * (N + 1)) = 1 := by
    rw [hζ, ← Complex.exp_nat_mul]
    have hN1C : ((N : ℂ) + 1) ≠ 0 := by exact_mod_cast Nat.succ_ne_zero N
    have harg : ((2 * (N + 1) : ℕ) : ℂ) * ((θ : ℝ) * Complex.I)
        = (m : ℂ) * (2 * (Real.pi : ℂ) * Complex.I) := by
      rw [hθ]
      push_cast
      field_simp
      ring
    rw [harg]
    exact Complex.exp_int_mul_two_pi_mul_I m
  calc ∑ k ∈ Finset.range (2 * (N + 1)), Real.cos (Real.pi * m * k / (N + 1))
      = ∑ k ∈ Finset.range (2 * (N + 1)), (ζ ^ k).re := by
        exact Finset.sum_congr rfl (fun k _ => hcos k)
    _ = (∑ k ∈ Finset.range (2 * (N + 1)), ζ ^ k).re := (Complex.re_sum _ _).symm
    _ = ((ζ ^ (2 * (N + 1)) - 1) / (ζ - 1)).re := by rw [geom_sum_eq hζne]
    _ = 0 := by rw [hζpow]; simp

/-- Partial-period cosine sum: summing `cos (pi * m * (k + 1) / (N + 1))` over
`k = 0, ..., N - 1` gives `-(1 + cos (pi * m)) / 2` whenever `2 * (N + 1)`
does not divide `m`. -/
theorem sum_cos_inner (N : ℕ) (m : ℤ) (h : ¬ ((2 * (N + 1) : ℤ) ∣ m)) :
    ∑ k ∈ Finset.range N, Real.cos (Real.pi * m * ((k : ℝ) + 1) / (N + 1))
      = -(1 + Real.cos (Real.pi * m)) / 2 := by
  have hN1 : ((N : ℝ) + 1) ≠ 0 := by positivity
  set f : ℕ → ℝ := fun k => Real.cos (Real.pi * m * k / (N + 1)) with hf
  set S : ℝ := ∑ k ∈ Finset.range N, Real.cos (Real.pi * m * ((k : ℝ) + 1) / (N + 1))
    with hS
  have hSf : S = ∑ k ∈ Finset.range N, f (k + 1) := by
    rw [hS]
    refine Finset.sum_congr rfl (fun k _ => ?_)
    rw [hf]
    push_cast
    ring_nf
  have hfull : ∑ k ∈ Finset.range (2 * (N + 1)), f k = 0 := sum_cos_full N m h
  have hsplit : ∑ k ∈ Finset.range (2 * (N + 1)), f k
      = (∑ k ∈ Finset.range (N + 1), f k)
        + ∑ k ∈ Finset.range (N + 1), f ((N + 1) + k) := by
    rw [two_mul, Finset.sum_range_add]
  have hchunk1 : ∑ k ∈ Finset.range (N + 1), f k = 1 + S := by
    rw [Finset.sum_range_succ', hSf]
    have hf0 : f 0 = 1 := by
      rw [hf]
      simp
    rw [hf0]
    ring
  have hchunk2 : ∑ k ∈ Finset.range (N + 1), f ((N + 1) + k)
      = S + Real.cos (Real.pi * m) := by
    have hrefl := Finset.sum_range_reflect (fun k => f ((N + 1) + k)) (N + 1)
    rw [← hrefl]
    have hterm : ∀ j ∈ Finset.range (N + 1), f ((N + 1) + (N + 1 - 1 - j)) = f (j + 1) := by
      intro j hj
      have hjN : j ≤ N := Nat.lt_succ_iff.mp (Finset.mem_range.mp hj)
      have hidx : (N + 1) + (N + 1 - 1 - j) = 2 * (N + 1) - (j + 1) := by omega
      rw [hidx]
      simp only [hf]
      have hcast : (((2 * (N + 1) - (j + 1) : ℕ)) : ℝ)
          = 2 * ((N : ℝ) + 1) - ((j : ℝ) + 1) := by
        have hle : j + 1 ≤ 2 * (N + 1) := by omega
        push_cast [Nat.cast_sub hle]
        ring
      rw [hcast]
      have hang : Real.pi * m * (2 * ((N : ℝ) + 1) - ((j : ℝ) + 1)) / ((N : ℝ) + 1)
          = (m : ℝ) * (2 * Real.pi) - Real.pi * m * ((j : ℝ) + 1) / ((N : ℝ) + 1) := by
        field_simp
        ring
      rw [hang, Real.cos_int_mul_two_pi_sub]
      norm_cast
    rw [Finset.sum_congr rfl hterm, Finset.sum_range_succ, hSf]
    have hlast : f (N + 1) = Real.cos (Real.pi * m) := by
      simp only [hf]
      have : Real.pi * m * ((N + 1 : ℕ) : ℝ) / ((N : ℝ) + 1) = Real.pi * m := by
        push_cast
        field_simp
      rw [this]
    rw [hlast]
  have hzero : (1 + S) + (S + Real.cos (Real.pi * m)) = 0 := by
    rw [← hchunk1, ← hchunk2, ← hsplit, hfull]
  linarith [hzero]

/-- Orthogonality of the type-I discrete sine kernel: the inner products of
the rows of the sine matrix equal `(N + 1) / 2` on the diagonal and vanish
elsewhere. -/
theorem sin_orth (N p q : ℕ) (hp : p < N) (hq : q < N) :
    ∑ k ∈ Finset.range N,
        Real.sin (Real.pi * ((p : ℝ) + 1) * ((k : ℝ) + 1) / ((N : ℝ) + 1)) *
          Real.sin (Real.pi * ((q : ℝ) + 1) * ((k : ℝ) + 1) / ((N : ℝ) + 1))
      = if p = q then ((N : ℝ) + 1) / 2 else 0 := by
  have hN1 : ((N : ℝ) + 1) ≠ 0 := by positivity
  have hps : ∀ A B : ℝ, Real.sin A * Real.sin B
      = (Real.cos (A - B) - Real.cos (A + B)) / 2 := by
    intro A B
    rw [Real.cos_sub, Real.cos_add]
    ring
  have hterm : ∀ k ∈ Finset.range N,
      Real.sin (Real.pi * ((p : ℝ) + 1) * ((k : ℝ) + 1) / ((N : ℝ) + 1)) *
          Real.sin (Real.pi * ((q : ℝ) + 1) * ((k : ℝ) + 1) / ((N : ℝ) + 1))
        = (Real.cos (Real.pi * (((p : ℤ) - (q : ℤ) : ℤ) : ℝ) * ((k : ℝ) + 1) / ((N : ℝ) + 1))
            - Real.cos (Real.pi * (((p : ℤ) + (q : ℤ) + 2 : ℤ) : ℝ) * ((k : ℝ) + 1) / ((N : ℝ) + 1))) / 2 := by
    intro k _
    have hA : Real.pi * ((p : ℝ) + 1) * ((k : ℝ) + 1) / ((N : ℝ) + 1)
        - Real.pi * ((q : ℝ) + 1) * ((k : ℝ) + 1) / ((N : ℝ) + 1)
        = Real.pi * (((p : ℤ) - (q : ℤ) : ℤ) : ℝ) * ((k : ℝ) + 1) / ((N : ℝ) + 1) := by
      push_cast
      ring
    have hB : Real.pi * ((p : ℝ) + 1) * ((k : ℝ) + 1) / ((N : ℝ) + 1)
        + Real.pi * ((q : ℝ) + 1) * ((k : ℝ) + 1) / ((N : ℝ) + 1)
        = Real.pi * (((p : ℤ) + (q : ℤ) + 2 : ℤ) : ℝ) * ((k : ℝ) + 1) / ((N : ℝ) + 1) := by
      push_cast
      ring
    rw [hps, hA, hB]
  rw [Finset.sum_congr rfl hterm, ← Finset.sum_div, Finset.sum_sub_distrib]
  have hm2dvd : ¬ ((2 * (N + 1) : ℤ) ∣ ((p : ℤ) + (q : ℤ) + 2)) := by
    intro hdvd
    have hpos : (0 : ℤ) < (p : ℤ) + (q : ℤ) + 2 := by positivity
    have hle := Int.le_of_dvd hpos hdvd
    omega
  have hC2 := sum_cos_inner N ((p : ℤ) + (q : ℤ) + 2) hm2dvd
  by_cases hpq : p = q
  · subst hpq
    rw [if_pos rfl]
    have hC1 : ∑ k ∈ Finset.range N,
        Real.cos (Real.pi * (((p : ℤ) - (p : ℤ) : ℤ) : ℝ) * ((k : ℝ) + 1) / ((N : ℝ) + 1))
          = (N : ℝ) := by
      have h1 : ∀ k ∈ Finset.range N,
          Real.cos (Real.pi * (((p : ℤ) - (p : ℤ) : ℤ) : ℝ) * ((k : ℝ) + 1) / ((N : ℝ) + 1)) = 1 := by
        intro k _
        norm_num
      rw [Finset.sum_congr rfl h1]
      simp
    have hcos2 : Real.cos (Real.pi * (((p : ℤ) + (p : ℤ) + 2 : ℤ) : ℝ)) = 1 := by
      have harg : Real.pi * (((p : ℤ) + (p : ℤ) + 2 : ℤ) : ℝ)
          = ((p + 1 : ℤ) : ℝ) * (2 * Real.pi) := by
        push_cast
        ring
      rw [harg, Real.cos_int_mul_two_pi]
    rw [hC1, hC2, hcos2]
    ring
  · rw [if_neg hpq]
    have hm1dvd : ¬ ((2 * (N + 1) : ℤ) ∣ ((p : ℤ) - (q : ℤ))) := by
      intro hdvd
      have h0 := Int.eq_zero_of_dvd_of_natAbs_lt_natAbs hdvd (by omega)
      omega
    have hC1 := sum_cos_inner N ((p : ℤ) - (q : ℤ)) hm1dvd
    have hcos2 : Real.cos (Real.pi * (((p : ℤ) + (q : ℤ) + 2 : ℤ) : ℝ))
        = Real.cos (Real.pi * (((p : ℤ) - (q : ℤ) : ℤ) : ℝ)) := by
      have harg : Real.pi * (((p : ℤ) + (q : ℤ) + 2 : ℤ) : ℝ)
          = Real.pi * (((p : ℤ) - (q : ℤ) : ℤ) : ℝ) + ((q + 1 : ℤ) : ℝ) * (2 * Real.pi) := by
        push_cast
        ring
      rw [harg, Real.cos_add_int_mul_two_pi]
    rw [hC1, hC2, hcos2]
    ring

/-- Fin-indexed reformulation of `sin_orth`, matching the shape of the sums
appearing in `Domain.to_fourier` and `Domain.to_real`. -/
theorem sin_orth_fin (N : ℕ) (p q : Fin N) :
    ∑ k : Fin N,
        Real.sin (Real.pi * ((p.val : ℝ) + 1) * ((k.val : ℝ) + 1) / ((N : ℝ) + 1)) *
          Real.sin (Real.pi * ((q.val : ℝ) + 1) * ((k.val : ℝ) + 1) / ((N : ℝ) + 1))
      = if p = q then ((N : ℝ) + 1) / 2 else 0 := by
  rw [Fin.sum_univ_eq_sum_range (fun k =>
    Real.sin (Real.pi * ((p.val : ℝ) + 1) * ((k : ℝ) + 1) / ((N : ℝ) + 1)) *
      Real.sin (Real.pi * ((q.val : ℝ) + 1) * ((k : ℝ) + 1) / ((N : ℝ) + 1)))]
  rw [sin_orth N p.val q.val p.isLt q.isLt]
  simp [Fin.ext_iff]

/-- C3 (round-trip property): for every real-valued scalar series `f` of the
domain's length, `to_real (to_fourier f)` equals `f` exactly (the transforms
are mutually inverse with correct normalization; floating-point tolerance in
the specification corresponds to exact equality in this real-number model). -/
theorem to_real_to_fourier_roundtrip (d : Domain) (hdr : d.dr ≠ 0)
    (f : Fin d.length → ℝ) : d.to_real (d.to_fourier f) = f := by
  funext i
  have hN1 : ((d.length : ℝ) + 1) ≠ 0 := by positivity
  have hπ := Real.pi_ne_zero
  have hstep1 : ∀ j : Fin d.length,
      Real.sin (Real.pi * ((i.val : ℝ) + 1) * ((j.val : ℝ) + 1) / ((d.length : ℝ) + 1)) *
          d.to_fourier f j
        = 2 * d.dr * ∑ t : Fin d.length,
            (Real.sin (Real.pi * ((i.val : ℝ) + 1) * ((j.val : ℝ) + 1) / ((d.length : ℝ) + 1)) *
              Real.sin (Real.pi * ((t.val : ℝ) + 1) * ((j.val : ℝ) + 1) / ((d.length : ℝ) + 1))) *
              f t := by
    intro j
    simp only [Domain.to_fourier]
    rw [mul_left_comm]
    congr 1
    rw [Finset.mul_sum]
    refine Finset.sum_congr rfl (fun t _ => ?_)
    rw [show Real.pi * ((j.val : ℝ) + 1) * ((t.val : ℝ) + 1) / ((d.length : ℝ) + 1)
          = Real.pi * ((t.val : ℝ) + 1) * ((j.val : ℝ) + 1) / ((d.length : ℝ) + 1) from by ring]
    ring
  simp only [Domain.to_real]
  rw [Finset.sum_congr rfl (fun j _ => hstep1 j), ← Finset.mul_sum, Finset.sum_comm]
  rw [Finset.sum_congr rfl (fun t _ => by
    rw [← Finset.sum_mul, sin_orth_fin d.length i t])]
  simp only [ite_mul, zero_mul]
  rw [Finset.sum_ite_eq]
  simp only [Finset.mem_univ, if_true]
  rw [Domain.dk]
  field_simp
  ring

end DST

namespace TypyPRISM

/-- Concrete single-site, single-grid-point domain over the rationals, used to
instantiate the solver theorems at a computable input. -/
def sampleDomain : Domain ℚ 1 :=
  { k := fun _ => 1, long_r := fun _ => 1, to_fourier := id, to_real := id }

/-- Concrete system with an atomic closure returning the zero series. -/
def sampleSystem : System ℚ 1 1 :=
  { domain := sampleDomain
    closure := fun _ _ => Closure.atomic (fun _ => Except.ok (fun _ => 0))
    omega := fun _ _ k => k
    pairDensityMatrix := 1
    siteDensityMatrix := 1 }

/-- Solver built from `sampleSystem`. -/
def sampleSolver : PRISM ℚ 1 1 := PRISM.construct sampleSystem

/-- Variant of `sampleSystem` whose every pair is assigned the (unimplemented)
molecular closure. -/
def sampleBadSystem : System ℚ 1 1 :=
  { sampleSystem with closure := fun _ _ => Closure.molecular }

/-- Solver built from `sampleBadSystem`. -/
def sampleBadSolver : PRISM ℚ 1 1 := PRISM.construct sampleBadSystem

/-- One-cell heap holding `sampleSystem`. -/
def sampleStore : Store ℚ 1 1 := { mem := fun _ => sampleSystem, next := 1 }

/-- Witness for C1 at the concrete solver and the zero input vector. -/
theorem funk_oz_residual_witness :
    (funk sampleSolver (fun _ => 0)).2
      = Except.ok (ozResidual sampleSolver (fun _ => 0)) :=
  funk_oz_residual sampleSolver (fun _ => 0) rfl rfl rfl rfl (by
    intro i
    fin_cases i
    rw [Matrix.det_fin_one]
    have hC : (ozFourierDC sampleSolver (fun _ => 0)).data ⟨0, Nat.one_pos⟩ 0 0 = 0 := by
      simp [ozFourierDC, funkDirectCorr, computeDirectCorr,
        show iterpairs 1 = [(0, 0)] from rfl, computeDCGo, applyClosure,
        MatrixArray.setPair, MatrixArray.getSeries, sampleSolver, PRISM.construct,
        sampleSystem, sampleDomain]
    rw [show ozIOC sampleSolver (fun _ => 0) ⟨0, Nat.one_pos⟩ 0 0
        = 1 - sampleSolver.omega.data ⟨0, Nat.one_pos⟩ 0 0 *
          (ozFourierDC sampleSolver (fun _ => 0)).data ⟨0, Nat.one_pos⟩ 0 0 by
      simp [ozIOC, Matrix.sub_apply, Matrix.one_apply, Matrix.mul_apply,
        Fin.sum_univ_one]]
    rw [hC]
    norm_num)

/-- Witness for C5 at a solver whose closures are all molecular. -/
theorem closure_dispatch_exhaustive_witness :
    (∀ (f : (Fin 1 → ℚ) → Except PrismError (Fin 1 → ℚ)) γ,
        applyClosure (Closure.atomic f) γ = f γ) ∧
      (∀ γ : Fin 1 → ℚ, applyClosure (Closure.molecular : Closure ℚ 1) γ
        = Except.error PrismError.notImplemented) ∧
      (∀ γ : Fin 1 → ℚ, applyClosure (Closure.other : Closure ℚ 1) γ
        = Except.error PrismError.closureNotRecognized) ∧
      ∀ y, (funk sampleBadSolver (fun _ => 0)).2 ≠ Except.ok y :=
  closure_dispatch_exhaustive sampleBadSolver (fun _ => 0) 0 0 (le_refl 0)
    (Or.inl rfl)

/-- Witness for C6 at the concrete one-cell heap. -/
theorem deepcopy_isolation_witness :
    funkRef ((constructStore sampleStore 0).write 0 sampleBadSystem)
        (constructSolver sampleStore 0) (constructRefId sampleStore 0) (fun _ => 0)
      = funkRef (constructStore sampleStore 0) (constructSolver sampleStore 0)
        (constructRefId sampleStore 0) (fun _ => 0) ∧
      solveRef ((constructStore sampleStore 0).write 0 sampleBadSystem)
          (constructSolver sampleStore 0) (constructRefId sampleStore 0)
          (fun f g => f g) none
        = solveRef (constructStore sampleStore 0) (constructSolver sampleStore 0)
          (constructRefId sampleStore 0) (fun f g => f g) none :=
  deepcopy_isolation sampleStore 0 Nat.one_pos sampleBadSystem (fun _ => 0)
    (fun f g => f g) none

/-- Witness for C8 at a concrete rank-2 zero MatrixArray. -/
theorem setPair_get_symmetric_witness :
    (MatrixArray.getSeries (MatrixArray.setPair
        ({ data := fun _ => 0, space := Space.Real } : MatrixArray ℚ 2 1) 0 1
        (fun _ => 5)) 1 0 = fun _ => 5) ∧
      (MatrixArray.getSeries (MatrixArray.setPair
          ({ data := fun _ => 0, space := Space.Real } : MatrixArray ℚ 2 1) 0 1
          (fun _ => 5)) 0 1 = fun _ => 5) ∧
      ∀ i (c d : Fin 2),
        (MatrixArray.setPair
            ({ data := fun _ => 0, space := Space.Real } : MatrixArray ℚ 2 1) 0 1
            (fun _ => 5)).data i c d
          = (MatrixArray.setPair
              ({ data := fun _ => 0, space := Space.Real } : MatrixArray ℚ 2 1) 0 1
              (fun _ => 5)).data i d c :=
  setPair_get_symmetric { data := fun _ => 0, space := Space.Real } 0 1
    (fun _ => 5) (fun _ _ _ => rfl)

/-- Witness for C2 at the bound potential `[0]` and `gamma = [3]`. -/
theorem percusYevick_formula_witness :
    ((PercusYevick.calculate id (⟨some [0], none⟩ : PercusYevick ℚ) [3]).2
      = Except.ok (List.zipWith (fun u g => (id (-u) - 1) * (1 + g))
          ([0] : List ℚ) [3])) ∧
      ∀ j, j < ([3] : List ℚ).length →
        (List.zipWith (fun u g => (id (-u) - 1) * (1 + g))
            ([0] : List ℚ) [3]).getD j 0
          = (id (-(([0] : List ℚ).getD j 0)) - 1) * (1 + ([3] : List ℚ).getD j 0) :=
  percusYevick_formula id ⟨some [0], none⟩ [0] [3] rfl rfl

/-- Witness for C4 at a length-2 potential and a length-1 `gamma`. -/
theorem percusYevick_domain_mismatch_witness :
    PercusYevick.calculate id (⟨some [0, 1], none⟩ : PercusYevick ℚ) [2]
      = (⟨some [0, 1], none⟩, Except.error "Domain mismatch!") :=
  percusYevick_domain_mismatch id ⟨some [0, 1], none⟩ [0, 1] [2] rfl (by decide)

/-- Witness for C10 at a closure with no bound potential. -/
theorem percusYevick_potential_not_set_witness :
    PercusYevick.calculate id (⟨none, none⟩ : PercusYevick ℚ) []
      = ((⟨none, none⟩ : PercusYevick ℚ),
          Except.error "Potential for this closure is not set!") :=
  percusYevick_potential_not_set id ⟨none, none⟩ [] rfl

end TypyPRISM

namespace DST

/-- Witness for C3 at the length-1 domain with unit spacing and the zero
series. -/
theorem to_real_to_fourier_roundtrip_witness :
    Domain.to_real ⟨1, 1⟩ (Domain.to_fourier ⟨1, 1⟩ (fun _ => 0)) = fun _ => 0 :=
  to_real_to_fourier_roundtrip ⟨1, 1⟩ one_ne_zero (fun _ => 0)

end DST
